import Mathlib

/-!
Verification of the core numeric, matching, game-state and calibration logic of
`QuantumAwesomeness.py` (the "A Game to Benchmark Quantum Computers" engine).

The Python functions are shallowly embedded as Lean definitions:
probabilities, fractions and qualities are real numbers, Python lists are
Lean lists, and the dictionaries of the source (`pairs`, gate records) are
association lists of `String` keys.  External collaborators (the quantum
backend, the random source, the vendored `mwmatching` library, the strategy
input) enter as explicit parameters or oracle streams.
-/

open Real

open scoped Classical

/-! ## Probability–angle transform (source lines 362–398) -/

/-- Source `calculateFrac` (lines 371–377): `frac = asin(sqrt(oneProb)) * 2 / pi`.
This is the value computed when both library calls are inside their domains. -/
noncomputable def calculateFrac (oneProb : ℝ) : ℝ :=
  Real.arcsin (Real.sqrt oneProb) * 2 / Real.pi

/-- Source `calculateFrac` with the domain behaviour of the Python `math`
module made explicit: `math.sqrt` raises `ValueError` on a negative input and
`math.asin` raises `ValueError` when its argument exceeds 1, so the function
returns a value exactly when `0 ≤ oneProb` and `sqrt oneProb ≤ 1`;
`none` models the raised exception.  No clamping appears in the source. -/
noncomputable def calculateFracChecked (oneProb : ℝ) : Option ℝ :=
  if oneProb < 0 then none
  else if 1 < Real.sqrt oneProb then none
  else some (Real.arcsin (Real.sqrt oneProb) * 2 / Real.pi)

/-- Modelled from the spec: `fracFromProb(p) = (2/π) · asin(sqrt(clamp(p,0,1)))`,
the domain-clamped transform the specification describes (the clamp is absent
from the source `calculateFrac`). -/
noncomputable def fracFromProbSpec (p : ℝ) : ℝ :=
  (2 / Real.pi) * Real.arcsin (Real.sqrt (max 0 (min p 1)))

/-- Source `calculateEntanglement` (lines 362–369): `min (2 * calculateFrac oneProb) 1`. -/
noncomputable def calculateEntanglement (oneProb : ℝ) : ℝ :=
  min (2 * calculateFrac oneProb) 1

/-- Source `calculateFracDifference` (lines 468–472):
`delta = max f1 f2 - min f1 f2; delta = min delta (1 - delta)`. -/
def calculateFracDifference (frac1 frac2 : ℝ) : ℝ :=
  min (max frac1 frac2 - min frac1 frac2) (1 - (max frac1 frac2 - min frac1 frac2))

/-! ## Pairs dictionaries

A `pairs` dictionary maps pair names to the two qubits of the pair.  It is
embedded as an association list of entries `(name, qubitA, qubitB)`, in the
dictionary's (insertion) iteration order. -/

/-- A pairs dictionary entry: name and the two qubit indices of the pair. -/
abbrev PairEntry := String × Nat × Nat

/-- Dictionary access `pairs[p]`, giving the two qubits of the pair named `p`
(the source only looks up names that are keys of the dictionary). -/
def pairsGet (pairs : List PairEntry) (p : String) : Nat × Nat :=
  (((pairs.find? (fun e => e.1 == p)).map (fun e => e.2)).getD (0, 0))

/-- Source `calculateFuzz` (lines 380–398): starting from `fuzzAv = 0`, each
pair `p` of the matching adds `|oneProb[pairs[p][0]] - oneProb[pairs[p][1]]| / len(matchingPairs)`. -/
noncomputable def calculateFuzz (oneProb : List ℝ) (pairs : List PairEntry)
    (matchingPairs : List String) : ℝ :=
  matchingPairs.foldl
    (fun fuzzAv p =>
      fuzzAv +
        |oneProb.getD (pairsGet pairs p).1 0 - oneProb.getD (pairsGet pairs p).2 0| /
          (matchingPairs.length : ℝ))
    0

/-! ## Calibration engine: `Metropolis` (source lines 843–880)

`Metropolis` performs a Metropolis–Hastings search over the cleaning profile
`x`.  The quality of a profile is computed by `CalculateQuality` from the
recorded corpus (strings that the source passes through Python `eval`); it is
taken here as an abstract parameter `Q : List ℝ → ℝ × ℝ` returning
`(fractionCorrect, closenessToIdeal)`.  The random draws of a step — the
coordinate `n = random.randint(0, 2*num-1)`, the perturbation
`random_delta = random.uniform(+delta, -delta)` and the acceptance draw
`u = random.random()` — are an explicit `StepChoice`. -/

/-- The random draws consumed by one Metropolis proposal step. -/
structure StepChoice where
  n : Nat
  delta : ℝ
  u : ℝ

/-- The mutable state of `Metropolis`: candidate profile `x` with its
`quality`, and the retained `best_x` with its `bestQuality`. -/
structure MetState where
  x : List ℝ
  quality : ℝ × ℝ
  best_x : List ℝ
  bestQuality : ℝ × ℝ

/-- Source line 865: `diff = 1*(proposedQuality[0]-quality[0]) + 2*(proposedQuality[1]-quality[1])`. -/
noncomputable def metropolisDiff (proposedQuality quality : ℝ × ℝ) : ℝ :=
  1 * (proposedQuality.1 - quality.1) + 2 * (proposedQuality.2 - quality.2)

/-- Source line 861: `x[n] += random_delta`. -/
noncomputable def metPropose (c : StepChoice) (x : List ℝ) : List ℝ :=
  x.set c.n (x.getD c.n 0 + c.delta)

/-- Source line 867: `accept = ( random.random() < math.exp(diff/T) )`. -/
def metAccept (Q : List ℝ → ℝ × ℝ) (T : ℝ) (c : StepChoice) (s : MetState) : Prop :=
  c.u < Real.exp (metropolisDiff (Q (metPropose c s.x)) s.quality / T)

/-- Source lines 874–877: `if quality[0] > bestQuality[0]: best_x = x; bestQuality = quality`.
The comparison uses only the first quality component (`fractionCorrect`). -/
noncomputable def metBestUpdate (s : MetState) : MetState :=
  if s.bestQuality.1 < s.quality.1 then
    { s with best_x := s.x, bestQuality := s.quality }
  else s

/-- Source lines 858–877, one proposal step: perturb coordinate `n`, recompute
the quality, accept (`quality = proposedQuality`) or undo the perturbation
(`x[n] -= random_delta`), then run the best-point update. -/
noncomputable def metStep (Q : List ℝ → ℝ × ℝ) (T : ℝ) (c : StepChoice) (s : MetState) :
    MetState :=
  if metAccept Q T c s then
    metBestUpdate { s with x := metPropose c s.x, quality := Q (metPropose c s.x) }
  else
    metBestUpdate
      { s with x := (metPropose c s.x).set c.n ((metPropose c s.x).getD c.n 0 - c.delta) }

/-- Source lines 845–847: `best_x = deepcopy(x); bestQuality = CalculateQuality(x, ...)`,
with the current quality initialised to the same value. -/
noncomputable def metInit (Q : List ℝ → ℝ × ℝ) (x : List ℝ) : MetState :=
  ⟨x, Q x, x, Q x⟩

/-- Source lines 853–854, the prologue of each repetition:
`x = deepcopy(best_x); quality = deepcopy(bestQuality)`. -/
noncomputable def metRestart (s : MetState) : MetState :=
  { s with x := s.best_x, quality := s.bestQuality }

/-- Source lines 849–877: one repetition is a restart from the best-known point
followed by the proposal steps. -/
noncomputable def metRepetition (Q : List ℝ → ℝ × ℝ) (T : ℝ) (steps : List StepChoice)
    (s : MetState) : MetState :=
  steps.foldl (fun s c => metStep Q T c s) (metRestart s)

/-- The whole `Metropolis` search: the given repetitions applied in order to
the initial state. -/
noncomputable def metropolisRun (Q : List ℝ → ℝ × ℝ) (T : ℝ)
    (reps : List (List StepChoice)) (s : MetState) : MetState :=
  reps.foldl (fun s steps => metRepetition Q T steps s) s

/-- Invariant of the Metropolis state: the stored qualities are the qualities
of the stored points (so `best_x` is a genuinely evaluated point), and the
retained best `fractionCorrect` dominates the current one. -/
def MetInv (Q : List ℝ → ℝ × ℝ) (s : MetState) : Prop :=
  s.quality = Q s.x ∧ s.bestQuality = Q s.best_x ∧ s.quality.1 ≤ s.bestQuality.1

/-- Concrete quality function for the best-point counterexample run. -/
noncomputable def Qce (x : List ℝ) : ℝ × ℝ :=
  if x = [2, 0] then (7/10, 0) else if x = [1, 1] then (3/5, 0) else (1/2, 9/10)

/-- First counterexample step: perturb coordinate 0 by `+1`, acceptance draw `1/2`. -/
noncomputable def c1ce : StepChoice := ⟨0, 1, 1/2⟩

/-- Second counterexample step: perturb coordinate 1 by `+1`, acceptance draw `0`. -/
noncomputable def c2ce : StepChoice := ⟨1, 1, 0⟩

/-- The Metropolis state after the two counterexample steps from the identity
profile `[1, 0]` of a one-qubit device, at temperature `T = 1`. -/
noncomputable def s2ce : MetState :=
  metStep Qce 1 c2ce (metStep Qce 1 c1ce (metInit Qce [1, 0]))

/-! ## Matching engine: `getDisjointPairs` (source lines 475–509)

`getDisjointPairs` assigns weights to the candidate pairs (random, or from
`oneProb` fraction differences), builds an edge list and runs the vendored
`mwmatching` library's exact maximum-weight matching with
`maxcardinality=True`.  The library file is part of the repository but not
under `src/`, so the list `mate` it returns is a parameter, constrained by
the matching contract modelled from the spec below. -/

/-- Source lines 488–493 (the `oneProb` branch): the weight of an edge is
minus the frac difference of its two qubits' implied fractions. -/
noncomputable def getDisjointPairsWeight (oneProb : List ℝ) (e : PairEntry) : ℝ :=
  -calculateFracDifference (calculateFrac (oneProb.getD e.2.1 0))
    (calculateFrac (oneProb.getD e.2.2 0))

/-- Source lines 495–497: the endpoints of the edge list handed to
`mw.maxWeightMatching` (one edge per entry of `pairs`). -/
def edgesOf (pairs : List PairEntry) : List (Nat × Nat) :=
  pairs.map (fun e => (e.2.1, e.2.2))

/-- Modelled from the spec: the contract of `mw.maxWeightMatching` from the
vendored `mwmatching` library (a repository file not under `src/`): the
returned list `mate` has `mate[v]` equal to the vertex matched to `v`, or
`-1` when `v` is unmatched; matched pairs are symmetric, irreflexive and
supported on the supplied edges. -/
def IsMatching (edges : List (Nat × Nat)) (mate : List Int) : Prop :=
  ∀ v, v < mate.length →
    mate.getD v (-1) = -1 ∨
      ∃ w, w < mate.length ∧ mate.getD v (-1) = (w : Int) ∧
        mate.getD w (-1) = (v : Int) ∧ v ≠ w ∧ ((v, w) ∈ edges ∨ (w, v) ∈ edges)

/-- The number of matched vertices of a matching result. -/
def matchedCount (mate : List Int) : Nat :=
  ((List.range mate.length).filter (fun v => mate.getD v (-1) != -1)).length

/-- Modelled from the spec: with `maxcardinality=True`, `mw.maxWeightMatching`
returns a matching of maximum cardinality among all matchings of the same
graph. -/
def IsMaxCardMatching (edges : List (Nat × Nat)) (mate : List Int) : Prop :=
  IsMatching edges mate ∧
    ∀ mate2, mate2.length = mate.length → IsMatching edges mate2 →
      matchedCount mate2 ≤ matchedCount mate

/-- Source line 506: the selection test `pairs[p]==[v,match[v]] and
p[0:4]!='fake'` for the entry `e` at vertex `v`. -/
abbrev dpSelect (mate : List Int) (v : Nat) (e : PairEntry) : Prop :=
  e.2.1 = v ∧ (e.2.2 : Int) = mate.getD v (-1) ∧ ¬ e.1.take 4 = "fake"

/-- Source lines 504–507, inner loop: the names collected at vertex `v`. -/
def innerNames (pairs : List PairEntry) (mate : List Int) (v : Nat) : List String :=
  pairs.filterMap (fun e => if dpSelect mate v e then some e.1 else none)

/-- Source lines 503–509: for `v` in `range(len(match))`, collect every pair
name `p` with `pairs[p] == [v, match[v]]` that is not flagged fake. -/
def getDisjointPairs (pairs : List PairEntry) (mate : List Int) : List String :=
  (List.range mate.length).flatMap (innerNames pairs mate)

/-- The perfect matching on `0..k-1` pairing `2i` with `2i+1`, used to
witness that a maximum-cardinality matching of a complete even layout is
perfect. -/
def mate0 (k : Nat) : List Int :=
  (List.range k).map (fun (v : Nat) => if v % 2 = 0 then (v : Int) + 1 else (v : Int) - 1)

/-! ## Round engine: `runGame` (source lines 512–716)

One game accumulates four append-only lists: `gates` (two `GateRecord`s per
completed round), `conjugates` (one per completed round), `totalFuzz` and
`oneProbs` (one entry per round each).  The per-round randomness — the fresh
puzzle produced by `getDisjointPairs` with its random fractions, the backend
measurement statistics returned by `entangle`, the strategy's guess, and the
fresh conjugation rotations — is supplied as explicit `RoundChoices`. -/

/-- One round's entangling gates: pair names mapped to signed fractions of π. -/
abbrev GateRecord := List (String × ℝ)

/-- The external inputs consumed by one `dataNeeded=True` round of `runGame`:
the new puzzle (matched pairs with their random fractions from lines 586–592),
the `oneProb` vector returned by `entangle` (line 596), the strategy's guessed
pairs (lines 611–659) and the fresh per-qubit conjugation rotations
(lines 688–690). -/
structure RoundChoices where
  appliedGates : GateRecord
  oneProb : List ℝ
  guessedPairs : List String
  newconjugates : List (String × ℝ)

/-- The Round Engine's mutable lists (source lines 532–535). -/
structure GameState where
  gates : List GateRecord
  conjugates : List (List (String × ℝ))
  totalFuzz : List ℝ
  oneProbs : List (List ℝ)

/-- Source lines 532–535: all four lists start empty in a fresh game. -/
def initialGameState : GameState := ⟨[], [], [], []⟩

/-- Source line 296 (in `entangle`): `rounds = int( (len(gates)+1)/2 )`. -/
def entangleRounds (gates : List GateRecord) : Nat :=
  (gates.length + 1) / 2

/-- Source lines 671–682: for each guessed pair, the implied fraction is
deduced from the average `oneProb` of its two qubits and stored negated. -/
noncomputable def guessedGatesOf (pairs : List PairEntry) (oneProb : List ℝ)
    (guessedPairs : List String) : GateRecord :=
  guessedPairs.map (fun p =>
    (p, -calculateFrac (oneProb.getD (pairsGet pairs p).1 0 / 2 +
          oneProb.getD (pairsGet pairs p).2 0 / 2)))

/-- Source line 593: `gates.append(appliedGates)` — the state between
appending the applied gates and appending the guessed gates, i.e. the state
seen by `entangle` at line 596. -/
def midRoundState (c : RoundChoices) (s : GameState) : GameState :=
  { s with gates := s.gates ++ [c.appliedGates] }

/-- Source lines 571–691, one complete `dataNeeded=True` round: append the
applied gates, obtain `oneProb` from the backend, record this round's fuzz
(line 663) and `oneProb` (line 665), deduce and append the guessed gates
(line 685), and append the fresh conjugates (line 691). -/
noncomputable def roundStep (pairs : List PairEntry) (c : RoundChoices) (s : GameState) :
    GameState :=
  let s1 := midRoundState c s
  let matchingPairs := c.appliedGates.map Prod.fst
  { gates := s1.gates ++ [guessedGatesOf pairs c.oneProb c.guessedPairs],
    conjugates := s1.conjugates ++ [c.newconjugates],
    totalFuzz := s1.totalFuzz ++ [calculateFuzz c.oneProb pairs matchingPairs],
    oneProbs := s1.oneProbs ++ [c.oneProb] }

/-- `runGame` with `dataNeeded=True`: the rounds applied in order to the empty
initial state. -/
noncomputable def runGame (pairs : List PairEntry) (rounds : List RoundChoices) : GameState :=
  rounds.foldl (fun s c => roundStep pairs c s) initialGameState

/-- The external inputs of a `dataNeeded=False` (replay) round: only the
guessed pairs and the fresh conjugates; the puzzle and `oneProb` come from the
preloaded lists. -/
structure ReplayChoices where
  guessedPairs : List String
  newconjugates : List (String × ℝ)

/-- Source lines 538–561 and 598–601 with `dataNeeded=False`: `gates` and
`oneProbs` are preloaded from the sample files, round `k` (0-based) reads
`oneProb = oneProbs[k]` and `matchingPairs = gates[2*k].keys()`, and the loop
still appends the guessed gates (line 685), the fresh conjugates (line 691),
this round's fuzz and a copy of `oneProb`. -/
noncomputable def replayRound (pairs : List PairEntry) (c : ReplayChoices) (k : Nat)
    (s : GameState) : GameState :=
  let oneProb := s.oneProbs.getD k []
  let matchingPairs := (s.gates.getD (2 * k) []).map Prod.fst
  { gates := s.gates ++ [guessedGatesOf pairs oneProb c.guessedPairs],
    conjugates := s.conjugates ++ [c.newconjugates],
    totalFuzz := s.totalFuzz ++ [calculateFuzz oneProb pairs matchingPairs],
    oneProbs := s.oneProbs ++ [oneProb] }

/-! ## Backend execution retry loop: `getResults` (source lines 190–205, 237–245)

The execution attempts of the backend collaborator are an oracle stream
`outcomes : Nat → Option ResultsRaw`; `outcomes i = none` models the i-th
attempt raising an exception (or, for QISKit, returning a status reply that
is not data).  The source loop is `while noResults: try ... noResults = False
except: sleep(...)`: a success is the only exit. -/

/-- A raw backend result: bitstrings with their observed probabilities. -/
abbrev ResultsRaw := List (String × ℝ)

/-- The loop guard after `n` iterations: `noResults` is still true iff none of
the first `n` attempts succeeded. -/
def noResultsAfter (outcomes : Nat → Option ResultsRaw) (n : Nat) : Bool :=
  !((List.range n).any (fun i => (outcomes i).isSome))

/-- The loop has halted within `n` iterations iff some attempt among the
first `n` succeeded — success is the only exit of the source loop. -/
def getResultsHalted (outcomes : Nat → Option ResultsRaw) (n : Nat) : Prop :=
  ∃ i < n, (outcomes i).isSome

/-- The loop observed for `n` iterations: the first successful attempt's
results together with the number of attempts consumed, or `none` if all `n`
attempts failed (and the loop is still running). -/
def getResultsWithin (outcomes : Nat → Option ResultsRaw) : Nat → Option (ResultsRaw × Nat)
  | 0 => none
  | n + 1 =>
    match getResultsWithin outcomes n with
    | some r => some r
    | none =>
      match outcomes n with
      | some r => some (r, n + 1)
      | none => none

/-- The retry loop never terminates on a stream of failures: after every
number of iterations the guard still holds and no value has been produced. -/
def retriesForever (outcomes : Nat → Option ResultsRaw) : Prop :=
  ∀ n, noResultsAfter outcomes n = true ∧ getResultsWithin outcomes n = none

/-! ## Claim C2: range, monotonicity and endpoint values of `calculateFrac` -/

theorem calculateFrac_zero : calculateFrac 0 = 0 := by
  simp [calculateFrac]

theorem calculateFrac_one : calculateFrac 1 = 1 := by
  rw [calculateFrac, Real.sqrt_one, Real.arcsin_one]
  field_simp

theorem calculateFrac_nonneg (p : ℝ) (hp : 0 ≤ p) : 0 ≤ calculateFrac p := by
  have h1 : 0 ≤ Real.arcsin (Real.sqrt p) := Real.arcsin_nonneg.mpr (Real.sqrt_nonneg p)
  have h2 : (0:ℝ) < Real.pi := Real.pi_pos
  rw [calculateFrac]
  exact div_nonneg (by linarith) (le_of_lt h2)

theorem calculateFrac_le_one (p : ℝ) : calculateFrac p ≤ 1 := by
  have h1 : Real.arcsin (Real.sqrt p) ≤ Real.pi / 2 := Real.arcsin_le_pi_div_two _
  have h2 : (0:ℝ) < Real.pi := Real.pi_pos
  rw [calculateFrac, div_le_one h2]
  linarith

theorem calculateFrac_mono (p q : ℝ) (hpq : p ≤ q) : calculateFrac p ≤ calculateFrac q := by
  have h1 : Real.arcsin (Real.sqrt p) ≤ Real.arcsin (Real.sqrt q) :=
    Real.monotone_arcsin (Real.sqrt_le_sqrt hpq)
  have h2 : (0:ℝ) < Real.pi := Real.pi_pos
  rw [calculateFrac, calculateFrac, div_le_div_iff_of_pos_right h2]
  linarith

/-- Claim C2: for `p, q ∈ [0,1]` with `p ≤ q`, `calculateFrac p` lies in `[0,1]`,
`calculateFrac` is monotonically non-decreasing, and its endpoint values are
`calculateFrac 0 = 0` and `calculateFrac 1 = 1`. -/
theorem calculateFrac_range_mono_endpoints (p q : ℝ)
    (hp0 : 0 ≤ p) (hp1 : p ≤ 1) (hq0 : 0 ≤ q) (hq1 : q ≤ 1) (hpq : p ≤ q) :
    (0 ≤ calculateFrac p ∧ calculateFrac p ≤ 1) ∧
      calculateFrac p ≤ calculateFrac q ∧
      calculateFrac 0 = 0 ∧ calculateFrac 1 = 1 :=
  ⟨⟨calculateFrac_nonneg p hp0, calculateFrac_le_one p⟩,
    calculateFrac_mono p q hpq, calculateFrac_zero, calculateFrac_one⟩

theorem calculateFrac_range_mono_endpoints_witness :
    (0 ≤ calculateFrac 0 ∧ calculateFrac 0 ≤ 1) ∧
      calculateFrac 0 ≤ calculateFrac 1 ∧
      calculateFrac 0 = 0 ∧ calculateFrac 1 = 1 :=
  calculateFrac_range_mono_endpoints 0 1 (by norm_num) (by norm_num) (by norm_num)
    (by norm_num) (by norm_num)

/-! ## Claim C3: `calculateFrac` does not clamp out-of-range inputs -/

/-- Claim C3 counterexample: the source `calculateFrac` is not total.  For the
input `2` the argument of `math.asin` exceeds 1 and a `ValueError` is raised
(`none`), and for the input `-1` the call `math.sqrt(-1)` raises; no clamping
to `[0,1]` takes place, contradicting the claimed totality. -/
theorem calculateFracChecked_not_total :
    calculateFracChecked 2 = none ∧ calculateFracChecked (-1) = none := by
  constructor
  · have h2 : (1:ℝ) < Real.sqrt 2 := by
      rw [show (1:ℝ) = Real.sqrt 1 by rw [Real.sqrt_one]]
      exact Real.sqrt_lt_sqrt (by norm_num) (by norm_num)
    rw [calculateFracChecked, if_neg (by norm_num), if_pos h2]
  · rw [calculateFracChecked, if_pos (by norm_num)]

/-- Claim C3 (amended): `calculateFrac` agrees with the spec's clamped
`fracFromProb` on `[0,1]` and returns a value there, but it raises for
`p < 0` (from `math.sqrt`) and for `p > 1` (from `math.asin`): out-of-range
inputs are not clamped. -/
theorem calculateFracChecked_domain (p : ℝ) :
    (0 ≤ p → p ≤ 1 →
      calculateFracChecked p = some (calculateFrac p) ∧
        calculateFrac p = fracFromProbSpec p) ∧
      (p < 0 → calculateFracChecked p = none) ∧
      (1 < p → calculateFracChecked p = none) := by
  refine ⟨fun h0 h1 => ⟨?_, ?_⟩, fun hneg => ?_, fun hbig => ?_⟩
  · rw [calculateFracChecked, if_neg (not_lt.mpr h0),
      if_neg (not_lt.mpr (Real.sqrt_le_one.mpr h1))]
    rfl
  · have hclamp : max 0 (min p 1) = p := by rw [min_eq_left h1, max_eq_right h0]
    rw [calculateFrac, fracFromProbSpec, hclamp]
    ring
  · rw [calculateFracChecked, if_pos hneg]
  · have h2 : (1:ℝ) < Real.sqrt p := by
      rw [show (1:ℝ) = Real.sqrt 1 by rw [Real.sqrt_one]]
      exact Real.sqrt_lt_sqrt (by norm_num) hbig
    rw [calculateFracChecked, if_neg (by linarith), if_pos h2]

theorem calculateFracChecked_domain_witness :
    calculateFracChecked (-1) = none :=
  (calculateFracChecked_domain (-1)).2.1 (by norm_num)

/-! ## Claim C8: symmetry and bounds of `calculateFracDifference` -/

/-- Claim C8 counterexample: for the fractions `-1` and `1` (both inside the
glossary range `[-1,1]` of rotation fractions) the source returns
`min 2 (1 - 2) = -1`, which is negative; the result is not bounded in
`[0, 0.5]` for all fractions. -/
theorem calculateFracDifference_neg_counterexample :
    calculateFracDifference (-1) 1 = -1 ∧ calculateFracDifference (-1) 1 < 0 := by
  norm_num [calculateFracDifference]

/-- Claim C8 (amended): `calculateFracDifference` is symmetric, equals
`min |f1 - f2| (1 - |f1 - f2|)`, and is at most `1/2`; it is non-negative
(hence bounded in `[0, 0.5]`) whenever `|f1 - f2| ≤ 1`, which holds in
particular on the range `[0,1]` of `calculateFrac`. -/
theorem calculateFracDifference_symm_bounds (f1 f2 : ℝ) :
    calculateFracDifference f1 f2 = calculateFracDifference f2 f1 ∧
      calculateFracDifference f1 f2 = min |f1 - f2| (1 - |f1 - f2|) ∧
      calculateFracDifference f1 f2 ≤ 1 / 2 ∧
      (|f1 - f2| ≤ 1 → 0 ≤ calculateFracDifference f1 f2) := by
  have habs : max f1 f2 - min f1 f2 = |f1 - f2| := by
    rw [max_sub_min_eq_abs f1 f2, abs_sub_comm]
  refine ⟨?_, ?_, ?_, ?_⟩
  · rw [calculateFracDifference, calculateFracDifference, max_comm, min_comm f1 f2]
  · rw [calculateFracDifference, habs]
  · rw [calculateFracDifference, habs]
    rcases le_total |f1 - f2| (1/2) with h | h
    · exact (min_le_left _ _).trans h
    · exact (min_le_right _ _).trans (by linarith)
  · intro h
    rw [calculateFracDifference, habs]
    exact le_min (abs_nonneg _) (by linarith)

theorem calculateFracDifference_symm_bounds_witness :
    0 ≤ calculateFracDifference 0 (1/2) :=
  (calculateFracDifference_symm_bounds 0 (1/2)).2.2.2 (by norm_num [abs_le])

/-! ## Claim C7: `calculateFuzz` is the mean intra-pair disagreement -/

theorem foldl_add_div (f : String → ℝ) (l : List String) (c : ℝ) (init : ℝ) :
    l.foldl (fun acc p => acc + f p / c) init = init + (l.map f).sum / c := by
  induction l generalizing init with
  | nil => simp
  | cons a l ih =>
    rw [List.foldl_cons, ih, List.map_cons, List.sum_cons, add_div, add_assoc]

/-- Claim C7: `calculateFuzz` returns the mean over the matching of
`|oneProb[a] - oneProb[b]|` for the two qubits `a`, `b` of each matched pair,
and it returns `0` for an empty matching (the division by the matching size
happens inside the loop, so no division by zero is executed). -/
theorem calculateFuzz_mean (oneProb : List ℝ) (pairs : List PairEntry)
    (matchingPairs : List String) :
    calculateFuzz oneProb pairs matchingPairs =
        (matchingPairs.map (fun p =>
          |oneProb.getD (pairsGet pairs p).1 0 - oneProb.getD (pairsGet pairs p).2 0|)).sum /
          (matchingPairs.length : ℝ) ∧
      calculateFuzz oneProb pairs [] = 0 := by
  constructor
  · rw [calculateFuzz, foldl_add_div, zero_add]
  · rfl

/-! ## Claim C5: the Metropolis acceptance rule -/

/-- Claim C5: a proposal is accepted exactly when the uniform draw `u ∈ [0,1)`
satisfies `u < exp(diff/T)` with
`diff = 1*(ΔfractionCorrect) + 2*(Δcloseness)`; consequently a proposal with
`diff ≥ 0` is accepted for every possible draw, and for `diff < 0` the set of
accepting draws inside `[0,1)` has measure `exp(diff/T)`. -/
theorem metAccept_characterisation (Q : List ℝ → ℝ × ℝ) (T : ℝ) (c : StepChoice)
    (s : MetState) (hu0 : 0 ≤ c.u) (hu1 : c.u < 1) (hT : 0 < T) :
    (metAccept Q T c s ↔
        c.u < Real.exp (metropolisDiff (Q (metPropose c s.x)) s.quality / T)) ∧
      (0 ≤ metropolisDiff (Q (metPropose c s.x)) s.quality → metAccept Q T c s) ∧
      (metropolisDiff (Q (metPropose c s.x)) s.quality < 0 →
        MeasureTheory.volume
            {v : ℝ | v ∈ Set.Ico (0:ℝ) 1 ∧ metAccept Q T ⟨c.n, c.delta, v⟩ s} =
          ENNReal.ofReal
            (Real.exp (metropolisDiff (Q (metPropose c s.x)) s.quality / T))) := by
  refine ⟨Iff.rfl, fun hd => ?_, fun hd => ?_⟩
  · have h1 : (1:ℝ) ≤ Real.exp (metropolisDiff (Q (metPropose c s.x)) s.quality / T) :=
      Real.one_le_exp (div_nonneg hd (le_of_lt hT))
    exact lt_of_lt_of_le hu1 h1
  · have hdT : metropolisDiff (Q (metPropose c s.x)) s.quality / T < 0 :=
      div_neg_of_neg_of_pos hd hT
    have he1 : Real.exp (metropolisDiff (Q (metPropose c s.x)) s.quality / T) < 1 := by
      have h := Real.exp_lt_exp.mpr hdT
      rwa [Real.exp_zero] at h
    have hmem : ∀ v : ℝ, metAccept Q T ⟨c.n, c.delta, v⟩ s ↔
        v < Real.exp (metropolisDiff (Q (metPropose c s.x)) s.quality / T) :=
      fun v => Iff.rfl
    have hset : {v : ℝ | v ∈ Set.Ico (0:ℝ) 1 ∧ metAccept Q T ⟨c.n, c.delta, v⟩ s} =
        Set.Ico (0:ℝ) (Real.exp (metropolisDiff (Q (metPropose c s.x)) s.quality / T)) := by
      ext v
      rw [Set.mem_setOf_eq, hmem v, Set.mem_Ico, Set.mem_Ico]
      constructor
      · rintro ⟨⟨h0, _⟩, hv⟩
        exact ⟨h0, hv⟩
      · rintro ⟨h0, hv⟩
        exact ⟨⟨h0, lt_of_lt_of_le hv (le_of_lt he1)⟩, hv⟩
    rw [hset, Real.volume_Ico, sub_zero]

theorem metAccept_characterisation_witness :
    metAccept (fun _ => ((0:ℝ), (0:ℝ))) 1 ⟨0, 0, 1/2⟩
      (metInit (fun _ => ((0:ℝ), (0:ℝ))) []) :=
  (metAccept_characterisation (fun _ => ((0:ℝ), (0:ℝ))) 1 ⟨0, 0, 1/2⟩
      (metInit (fun _ => ((0:ℝ), (0:ℝ))) [])
      (by norm_num) (by norm_num) (by norm_num)).2.1
    (by norm_num [metropolisDiff, metInit])

/-! ## Claim C10: frame property of one Metropolis step -/

theorem set_getD_self (x : List ℝ) (n : Nat) (h : n < x.length) :
    x.set n (x.getD n 0) = x := by
  apply List.ext_getElem?
  intro i
  by_cases hi : i = n
  · subst hi
    rw [List.getElem?_set_self h, List.getD_eq_getElem?_getD,
      List.getElem?_eq_getElem h, Option.getD_some]
  · exact List.getElem?_set_ne (fun hh => hi hh.symm)

theorem metPropose_undo (c : StepChoice) (x : List ℝ) :
    (metPropose c x).set c.n ((metPropose c x).getD c.n 0 - c.delta) = x := by
  by_cases h : c.n < x.length
  · rw [metPropose]
    generalize hv : x.getD c.n 0 + c.delta = v
    have hread : (x.set c.n v).getD c.n 0 = v := by
      rw [List.getD_eq_getElem?_getD, List.getElem?_set_self h, Option.getD_some]
    rw [hread, List.set_set]
    have hv2 : v - c.delta = x.getD c.n 0 := by rw [← hv]; ring
    rw [hv2]
    exact set_getD_self x c.n h
  · rw [metPropose, List.set_eq_of_length_le (le_of_not_lt h),
      List.set_eq_of_length_le (le_of_not_lt h)]

theorem metBestUpdate_x (s : MetState) : (metBestUpdate s).x = s.x := by
  rw [metBestUpdate]
  split <;> rfl

theorem metBestUpdate_quality (s : MetState) : (metBestUpdate s).quality = s.quality := by
  rw [metBestUpdate]
  split <;> rfl

/-- Claim C10: in one Metropolis proposal step only the randomly chosen
coordinate `n` of the candidate vector can change, and when the proposal is
rejected the perturbation is undone by subtracting the same delta, so the
whole vector after a rejected step equals (in the exact real arithmetic of the
embedding) the vector before the step. -/
theorem metStep_frame (Q : List ℝ → ℝ × ℝ) (T : ℝ) (c : StepChoice) (s : MetState)
    (hn : c.n < s.x.length) :
    (∀ m, m ≠ c.n → (metStep Q T c s).x.getD m 0 = s.x.getD m 0) ∧
      (metStep Q T c s).x.length = s.x.length ∧
      (¬ metAccept Q T c s → (metStep Q T c s).x = s.x) := by
  by_cases h : metAccept Q T c s
  · rw [metStep, if_pos h]
    refine ⟨fun m hm => ?_, ?_, fun hna => absurd h hna⟩
    · rw [metBestUpdate_x]
      show (metPropose c s.x).getD m 0 = s.x.getD m 0
      rw [metPropose]
      simp only [List.getD_eq_getElem?_getD]
      rw [List.getElem?_set_ne (fun hh => hm hh.symm)]
    · rw [metBestUpdate_x]
      show (metPropose c s.x).length = s.x.length
      rw [metPropose, List.length_set]
  · rw [metStep, if_neg h]
    have hundo := metPropose_undo c s.x
    refine ⟨fun m hm => ?_, ?_, fun _ => ?_⟩
    · rw [metBestUpdate_x]
      show ((metPropose c s.x).set c.n ((metPropose c s.x).getD c.n 0 - c.delta)).getD m 0
          = s.x.getD m 0
      rw [hundo]
    · rw [metBestUpdate_x]
      show ((metPropose c s.x).set c.n ((metPropose c s.x).getD c.n 0 - c.delta)).length
          = s.x.length
      rw [hundo]
    · rw [metBestUpdate_x]
      exact hundo

theorem metStep_frame_witness :
    (metStep Qce 1 c1ce (metInit Qce [1, 0])).x.getD 1 0
      = (metInit Qce [1, 0]).x.getD 1 0 :=
  (metStep_frame Qce 1 c1ce (metInit Qce [1, 0])
      (by show (0:ℕ) < 2; norm_num)).1 1 (by show (1:ℕ) ≠ 0; norm_num)

/-! ## Claim C6: what the Metropolis best-point bookkeeping really retains -/

theorem metBestUpdate_best (s : MetState) :
    (metBestUpdate s).bestQuality.1 = max s.bestQuality.1 s.quality.1 := by
  by_cases h : s.bestQuality.1 < s.quality.1
  · rw [metBestUpdate, if_pos h, max_eq_right (le_of_lt h)]
  · rw [metBestUpdate, if_neg h, max_eq_left (le_of_not_lt h)]

theorem metBestUpdate_inv (Q : List ℝ → ℝ × ℝ) (s : MetState)
    (hq : s.quality = Q s.x) (hb : s.bestQuality = Q s.best_x) :
    MetInv Q (metBestUpdate s) := by
  by_cases h : s.bestQuality.1 < s.quality.1
  · rw [metBestUpdate, if_pos h]
    exact ⟨hq, hq, le_refl _⟩
  · rw [metBestUpdate, if_neg h]
    exact ⟨hq, hb, le_of_not_lt h⟩

theorem metStep_inv (Q : List ℝ → ℝ × ℝ) (T : ℝ) (c : StepChoice) (s : MetState)
    (hinv : MetInv Q s) :
    MetInv Q (metStep Q T c s) ∧
      s.bestQuality.1 ≤ (metStep Q T c s).bestQuality.1 ∧
      (metStep Q T c s).bestQuality.1 = max s.bestQuality.1 (metStep Q T c s).quality.1 := by
  obtain ⟨hq, hb, hle⟩ := hinv
  by_cases h : metAccept Q T c s
  · rw [metStep, if_pos h]
    refine ⟨metBestUpdate_inv Q _ rfl hb, ?_, ?_⟩
    · rw [metBestUpdate_best]
      exact le_max_left _ _
    · rw [metBestUpdate_best, metBestUpdate_quality]
  · rw [metStep, if_neg h]
    have hx : ((metPropose c s.x).set c.n ((metPropose c s.x).getD c.n 0 - c.delta)) = s.x :=
      metPropose_undo c s.x
    refine ⟨metBestUpdate_inv Q _ ?_ hb, ?_, ?_⟩
    · show s.quality = Q ((metPropose c s.x).set c.n ((metPropose c s.x).getD c.n 0 - c.delta))
      rw [hx]
      exact hq
    · rw [metBestUpdate_best]
      exact le_max_left _ _
    · rw [metBestUpdate_best, metBestUpdate_quality]

theorem metRestart_inv (Q : List ℝ → ℝ × ℝ) (s : MetState) (hinv : MetInv Q s) :
    MetInv Q (metRestart s) ∧ (metRestart s).bestQuality = s.bestQuality := by
  obtain ⟨_, hb, _⟩ := hinv
  exact ⟨⟨hb, hb, le_refl _⟩, rfl⟩

theorem foldl_metStep_inv (Q : List ℝ → ℝ × ℝ) (T : ℝ) (steps : List StepChoice)
    (s : MetState) (hinv : MetInv Q s) :
    MetInv Q (steps.foldl (fun s c => metStep Q T c s) s) ∧
      s.bestQuality.1 ≤ (steps.foldl (fun s c => metStep Q T c s) s).bestQuality.1 := by
  induction steps generalizing s with
  | nil => exact ⟨hinv, le_refl _⟩
  | cons c cs ih =>
    obtain ⟨h1, h2, _⟩ := metStep_inv Q T c s hinv
    obtain ⟨h3, h4⟩ := ih (metStep Q T c s) h1
    exact ⟨h3, le_trans h2 h4⟩

theorem metRepetition_inv (Q : List ℝ → ℝ × ℝ) (T : ℝ) (steps : List StepChoice)
    (s : MetState) (hinv : MetInv Q s) :
    MetInv Q (metRepetition Q T steps s) ∧
      s.bestQuality.1 ≤ (metRepetition Q T steps s).bestQuality.1 := by
  obtain ⟨h1, h2⟩ := metRestart_inv Q s hinv
  obtain ⟨h3, h4⟩ := foldl_metStep_inv Q T steps (metRestart s) h1
  rw [h2] at h4
  exact ⟨h3, h4⟩

theorem metropolisRun_inv (Q : List ℝ → ℝ × ℝ) (T : ℝ) (reps : List (List StepChoice))
    (s : MetState) (hinv : MetInv Q s) :
    MetInv Q (metropolisRun Q T reps s) ∧
      s.bestQuality.1 ≤ (metropolisRun Q T reps s).bestQuality.1 := by
  induction reps generalizing s with
  | nil => exact ⟨hinv, le_refl _⟩
  | cons steps rest ih =>
    obtain ⟨h1, h2⟩ := metRepetition_inv Q T steps s hinv
    obtain ⟨h3, h4⟩ := ih (metRepetition Q T steps s) h1
    exact ⟨h3, le_trans h2 h4⟩

/-- Claim C6 counterexample: a two-step run (temperature 1, quality function
`Qce`, start profile `[1,0]`) in which the retained best point is not the best
point seen.  Step 1 evaluates the proposal `[2,0]` with quality `(7/10, 0)`
but rejects it; step 2 accepts `[1,1]` with quality `(3/5, 0)` and promotes it
to best because only `fractionCorrect` is compared.  Afterwards the retained
`bestQuality` is `(3/5, 0)` although the initial point's quality `(1/2, 9/10)`
beats it in the combined objective (the `metropolisDiff` between them is
positive, so the best combined objective decreased) and the rejected
proposal's `fractionCorrect` `7/10` also beats it. -/
theorem metropolis_best_seen_counterexample :
    s2ce.bestQuality = (3/5, 0) ∧
      0 < metropolisDiff (metInit Qce [1, 0]).quality s2ce.bestQuality ∧
      s2ce.bestQuality.1 < (Qce (metPropose c1ce (metInit Qce [1, 0]).x)).1 := by
  have hq10 : Qce [1, 0] = (1/2, 9/10) := by
    rw [Qce, if_neg (by norm_num), if_neg (by norm_num)]
  have hq20 : Qce [2, 0] = (7/10, 0) := by
    rw [Qce, if_pos rfl]
  have hq11 : Qce [1, 1] = (3/5, 0) := by
    rw [Qce, if_neg (by norm_num), if_pos rfl]
  have hp1 : metPropose c1ce (metInit Qce [1, 0]).x = [2, 0] := by
    show ([1, 0] : List ℝ).set 0 (([1, 0] : List ℝ).getD 0 0 + 1) = [2, 0]
    norm_num
  have hp2 : metPropose c2ce (metInit Qce [1, 0]).x = [1, 1] := by
    show ([1, 0] : List ℝ).set 1 (([1, 0] : List ℝ).getD 1 0 + 1) = [1, 1]
    norm_num
  have hacc1 : ¬ metAccept Qce 1 c1ce (metInit Qce [1, 0]) := by
    rw [metAccept, hp1, hq20]
    show ¬ ((1:ℝ)/2 < Real.exp (metropolisDiff (7/10, 0) (Qce [1, 0]) / 1))
    rw [hq10]
    have hd : metropolisDiff ((7:ℝ)/10, (0:ℝ)) ((1:ℝ)/2, (9:ℝ)/10) = -(8/5) := by
      rw [metropolisDiff]
      norm_num
    rw [hd, div_one]
    have h85 : (13:ℝ)/5 ≤ Real.exp (8/5) := by
      have h := Real.add_one_le_exp ((8:ℝ)/5)
      linarith
    have hinv2 : Real.exp (-(8/5) : ℝ) ≤ 5/13 := by
      rw [Real.exp_neg]
      rw [show (5:ℝ)/13 = ((13:ℝ)/5)⁻¹ by norm_num]
      exact inv_anti₀ (by norm_num) h85
    intro hc
    linarith
  have hne : ¬ ((metInit Qce [1, 0]).bestQuality.1 < (metInit Qce [1, 0]).quality.1) := by
    show ¬ ((Qce [1, 0]).1 < (Qce [1, 0]).1)
    exact lt_irrefl _
  have hs1 : metStep Qce 1 c1ce (metInit Qce [1, 0]) = metInit Qce [1, 0] := by
    rw [metStep, if_neg hacc1]
    have hundo := metPropose_undo c1ce (metInit Qce [1, 0]).x
    rw [hundo]
    show metBestUpdate (metInit Qce [1, 0]) = metInit Qce [1, 0]
    rw [metBestUpdate, if_neg hne]
  have hacc2 : metAccept Qce 1 c2ce (metInit Qce [1, 0]) := by
    rw [metAccept, hp2]
    show (0:ℝ) < Real.exp (metropolisDiff (Qce [1, 1]) (Qce [1, 0]) / 1)
    exact Real.exp_pos _
  have hlt2 : ({ metInit Qce [1, 0] with x := [1, 1], quality := Qce [1, 1] }
        : MetState).bestQuality.1
      < ({ metInit Qce [1, 0] with x := [1, 1], quality := Qce [1, 1] } : MetState).quality.1 := by
    show (Qce [1, 0]).1 < (Qce [1, 1]).1
    rw [hq10, hq11]
    norm_num
  have hs2 : s2ce.bestQuality = Qce [1, 1] := by
    rw [s2ce, hs1, metStep, if_pos hacc2, hp2]
    show (metBestUpdate { metInit Qce [1, 0] with x := [1, 1], quality := Qce [1, 1] }).bestQuality
        = Qce [1, 1]
    rw [metBestUpdate, if_pos hlt2]
  refine ⟨?_, ?_, ?_⟩
  · rw [hs2, hq11]
  · rw [hs2, hq11]
    rw [show (metInit Qce [1, 0]).quality = Qce [1, 0] from rfl, hq10, metropolisDiff]
    norm_num
  · rw [hs2, hq11, hp1, hq20]
    norm_num

/-- Claim C6 (amended): the retained `(best_x, bestQuality)` is a genuinely
evaluated point (`bestQuality = Q best_x`), the retained best is preserved by
each restart and its `fractionCorrect` component never decreases across steps,
repetitions or the whole run, and after each step the retained
`fractionCorrect` equals the maximum of the previous best and the current
point's value — the comparison is by `fractionCorrect` (`quality[0]`) only,
over the accepted trajectory, not by the combined objective over all evaluated
proposals. -/
theorem metropolis_best_tracking (Q : List ℝ → ℝ × ℝ) (T : ℝ) (c : StepChoice)
    (s : MetState) (reps : List (List StepChoice)) (hinv : MetInv Q s) :
    (metStep Q T c s).bestQuality.1 = max s.bestQuality.1 (metStep Q T c s).quality.1 ∧
      s.bestQuality.1 ≤ (metStep Q T c s).bestQuality.1 ∧
      (metRestart s).bestQuality = s.bestQuality ∧
      MetInv Q (metStep Q T c s) ∧
      MetInv Q (metropolisRun Q T reps s) ∧
      s.bestQuality.1 ≤ (metropolisRun Q T reps s).bestQuality.1 := by
  obtain ⟨h1, h2, h3⟩ := metStep_inv Q T c s hinv
  obtain ⟨h4, h5⟩ := metropolisRun_inv Q T reps s hinv
  exact ⟨h3, h2, (metRestart_inv Q s hinv).2, h1, h4, h5⟩

theorem metropolis_best_tracking_witness :
    (metRestart (metInit Qce [1, 0])).bestQuality = (metInit Qce [1, 0]).bestQuality :=
  (metropolis_best_tracking Qce 1 c1ce (metInit Qce [1, 0]) []
      ⟨rfl, rfl, le_refl _⟩).2.2.1

/-! ## Claim C4: the Round Engine state-length invariant -/

theorem roundStep_lengths (pairs : List PairEntry) (c : RoundChoices) (s : GameState) :
    (roundStep pairs c s).gates.length = s.gates.length + 2 ∧
      (roundStep pairs c s).conjugates.length = s.conjugates.length + 1 := by
  constructor <;> simp [roundStep, midRoundState]

theorem runGame_foldl_lengths (pairs : List PairEntry) (cs : List RoundChoices)
    (s : GameState) :
    (cs.foldl (fun s c => roundStep pairs c s) s).gates.length
        = s.gates.length + 2 * cs.length ∧
      (cs.foldl (fun s c => roundStep pairs c s) s).conjugates.length
        = s.conjugates.length + cs.length := by
  induction cs generalizing s with
  | nil => simp
  | cons c cs ih =>
    obtain ⟨h1, h2⟩ := roundStep_lengths pairs c s
    obtain ⟨h3, h4⟩ := ih (roundStep pairs c s)
    rw [List.foldl_cons] at *
    constructor
    · rw [h3, h1, List.length_cons]
      ring
    · rw [h4, h2, List.length_cons]
      ring

/-- Claim C4 counterexample: in a `dataNeeded=False` (replay) game, `gates` is
preloaded with the recorded game's `2·maxScore` gate slices and each round
still appends a fresh guessed-gates record, so after round 1 of a recorded
1-round game `gates` has length `3`, not `2·1` — `runGame`'s length invariant
fails in replay mode. -/
theorem runGame_replay_length_counterexample :
    (replayRound [("A", 0, 1)] ⟨["A"], []⟩ 0
        ⟨[[("A", 1/2)], [("A", -(1/2))]], [], [], [[1/2, 1/2]]⟩).gates.length = 3 ∧
      (3 : Nat) ≠ 2 * 1 := by
  constructor
  · simp [replayRound, guessedGatesOf]
  · norm_num

/-- Claim C4 (amended): for every `dataNeeded=True` game run by `runGame`,
after round `r` completes `gates` has length `2r` and `conjugates` has length
`r`; while round `r+1` is partially complete — between appending its applied
gates and appending its guessed gates — `gates` has length `2(r+1) − 1` and
`conjugates` has length `(r+1) − 1`, so `entangle` (whose round count is
`(len(gates)+1)/2`) sees exactly `r+1` rounds.  In `dataNeeded=False` replay
mode the invariant does not hold. -/
theorem runGame_state_lengths (pairs : List PairEntry) (cs : List RoundChoices)
    (c : RoundChoices) :
    (runGame pairs cs).gates.length = 2 * cs.length ∧
      (runGame pairs cs).conjugates.length = cs.length ∧
      (midRoundState c (runGame pairs cs)).gates.length = 2 * (cs.length + 1) - 1 ∧
      (midRoundState c (runGame pairs cs)).conjugates.length = (cs.length + 1) - 1 ∧
      entangleRounds (midRoundState c (runGame pairs cs)).gates = cs.length + 1 := by
  have h1 := (runGame_foldl_lengths pairs cs initialGameState).1
  have h2 := (runGame_foldl_lengths pairs cs initialGameState).2
  have hg : (runGame pairs cs).gates.length = 2 * cs.length := by
    rw [runGame, h1]
    simp [initialGameState]
  have hc : (runGame pairs cs).conjugates.length = cs.length := by
    rw [runGame, h2]
    simp [initialGameState]
  have hm : (midRoundState c (runGame pairs cs)).gates.length
      = (runGame pairs cs).gates.length + 1 := by
    simp [midRoundState]
  have hmc : (midRoundState c (runGame pairs cs)).conjugates.length
      = (runGame pairs cs).conjugates.length := rfl
  refine ⟨hg, hc, ?_, ?_, ?_⟩
  · rw [hm, hg]
    omega
  · rw [hmc, hc]
    omega
  · rw [entangleRounds, hm, hg]
    omega

/-! ## Claim C9: backend failure handling in `getResults` -/

/-- Claim C9 counterexample: on a backend that fails every attempt, the
execution loop of `getResults` never halts — after any number of iterations
the guard `noResults` still holds and no value (and no error) has been
produced.  The code has no bounded number of attempts and no fatal-error
escalation; it retries forever. -/
theorem getResults_unbounded_retry_counterexample :
    retriesForever (fun _ => none) ∧ ¬ ∃ N, getResultsHalted (fun _ => none) N := by
  constructor
  · intro n
    constructor
    · simp [noResultsAfter]
    · induction n with
      | zero => rfl
      | succ m ih => rw [getResultsWithin, ih]
  · rintro ⟨N, i, hi, hsome⟩
    simp at hsome

/-- Claim C9 (amended): on repeated backend failure `getResults` sleeps a
fixed duration and retries without bound: while every attempt so far has
failed the loop is still running, and if the first success is attempt `i`
(0-based) the loop halts after exactly `i + 1` attempts — however large `i`
is — returning that attempt's results.  No retry limit exists; a persistent
failure is never surfaced as an error (the loop simply never terminates), and
the game is neither aborted on first failure nor silently skipped. -/
theorem getResults_retry_semantics (outcomes : Nat → Option ResultsRaw) (i : Nat)
    (r : ResultsRaw) (hfail : ∀ j, j < i → outcomes j = none)
    (hsucc : outcomes i = some r) :
    (∀ n, n ≤ i → noResultsAfter outcomes n = true) ∧
      noResultsAfter outcomes (i + 1) = false ∧
      (∀ n, n ≤ i → getResultsWithin outcomes n = none) ∧
      getResultsWithin outcomes (i + 1) = some (r, i + 1) ∧
      getResultsHalted outcomes (i + 1) := by
  have hnone : ∀ n, n ≤ i → getResultsWithin outcomes n = none := by
    intro n hn
    induction n with
    | zero => rfl
    | succ m ih =>
      rw [getResultsWithin, ih (by omega), hfail m (by omega)]
  refine ⟨?_, ?_, hnone, ?_, ?_⟩
  · intro n hn
    rw [noResultsAfter, Bool.not_eq_true', List.any_eq_false]
    intro j hj
    have hjn := hfail j (lt_of_lt_of_le (List.mem_range.mp hj) hn)
    simp [hjn]
  · have hany : (List.range (i + 1)).any (fun i => (outcomes i).isSome) = true := by
      rw [List.any_eq_true]
      exact ⟨i, List.mem_range.mpr (by omega), by rw [hsucc]; rfl⟩
    rw [noResultsAfter, hany]
    rfl
  · rw [getResultsWithin, hnone i (le_refl i), hsucc]
  · exact ⟨i, by omega, by rw [hsucc]; rfl⟩

theorem getResults_retry_semantics_witness :
    getResultsWithin (fun j => if j = 2 then some [] else none) 3 = some ([], 3) :=
  (getResults_retry_semantics (fun j => if j = 2 then some [] else none) 2 []
      (fun j hj => by
        show (if j = 2 then some ([] : ResultsRaw) else none) = none
        rw [if_neg (by omega)])
      (by
        show (if 2 = 2 then some ([] : ResultsRaw) else none) = some []
        rw [if_pos rfl])).2.2.2.1

/-! ## Claim C1: properties of `getDisjointPairs` -/

theorem filterMap_if_sublist (l : List PairEntry) (P : PairEntry → Prop) [DecidablePred P] :
    (l.filterMap (fun e => if P e then some e.1 else none)).Sublist
      (l.map (fun e => e.1)) := by
  induction l with
  | nil => exact List.Sublist.refl _
  | cons e es ih =>
    rw [List.filterMap_cons, List.map_cons]
    by_cases h : P e
    · rw [if_pos h]
      exact ih.cons₂ e.1
    · rw [if_neg h]
      exact ih.cons e.1

theorem innerNames_sublist (pairs : List PairEntry) (mate : List Int) (v : Nat) :
    (innerNames pairs mate v).Sublist (pairs.map (fun e => e.1)) :=
  filterMap_if_sublist pairs (dpSelect mate v)

theorem innerNames_nodup (pairs : List PairEntry) (mate : List Int) (v : Nat)
    (hkeys : (pairs.map (fun e => e.1)).Nodup) : (innerNames pairs mate v).Nodup :=
  hkeys.sublist (innerNames_sublist pairs mate v)

theorem mem_innerNames (pairs : List PairEntry) (mate : List Int) (v : Nat) (p : String) :
    p ∈ innerNames pairs mate v ↔ ∃ e, e ∈ pairs ∧ e.1 = p ∧ dpSelect mate v e := by
  rw [innerNames, List.mem_filterMap]
  constructor
  · rintro ⟨e, he, hsome⟩
    by_cases h : dpSelect mate v e
    · rw [if_pos h] at hsome
      exact ⟨e, he, Option.some.inj hsome, h⟩
    · rw [if_neg h] at hsome
      exact Option.noConfusion hsome
  · rintro ⟨e, he, hep, h⟩
    exact ⟨e, he, by rw [if_pos h, hep]⟩

theorem mem_getDisjointPairs (pairs : List PairEntry) (mate : List Int) (p : String) :
    p ∈ getDisjointPairs pairs mate ↔
      ∃ e, e ∈ pairs ∧ e.1 = p ∧ e.2.1 < mate.length ∧
        (e.2.2 : Int) = mate.getD e.2.1 (-1) ∧ ¬ e.1.take 4 = "fake" := by
  rw [getDisjointPairs, List.mem_flatMap]
  constructor
  · rintro ⟨v, hv, hmem⟩
    rw [List.mem_range] at hv
    obtain ⟨e, he, hep, h1, h2, h3⟩ := (mem_innerNames pairs mate v p).mp hmem
    subst h1
    exact ⟨e, he, hep, hv, h2, h3⟩
  · rintro ⟨e, he, hep, hlt, hmate, hfake⟩
    exact ⟨e.2.1, List.mem_range.mpr hlt,
      (mem_innerNames pairs mate e.2.1 p).mpr ⟨e, he, hep, rfl, hmate, hfake⟩⟩

theorem pairs_name_inj (pairs : List PairEntry)
    (hkeys : (pairs.map (fun e => e.1)).Nodup) :
    ∀ e1, e1 ∈ pairs → ∀ e2, e2 ∈ pairs → e1.1 = e2.1 → e1 = e2 :=
  fun e1 h1 e2 h2 h => List.inj_on_of_nodup_map hkeys h1 h2 h

theorem mate_symm (pairs : List PairEntry) (mate : List Int)
    (hmatch : IsMatching (edgesOf pairs) mate) (a b : Nat)
    (ha : a < mate.length) (hab : mate.getD a (-1) = (b : Int)) :
    b < mate.length ∧ mate.getD b (-1) = (a : Int) ∧ a ≠ b := by
  rcases hmatch a ha with h | ⟨w, hw, h1, h2, h3, _⟩
  · rw [hab] at h
    exact absurd h (by omega)
  · rw [hab] at h1
    have hbw : b = w := by exact_mod_cast h1
    subst hbw
    exact ⟨hw, h2, h3⟩

theorem getDisjointPairs_nodup (pairs : List PairEntry) (mate : List Int)
    (hkeys : (pairs.map (fun e => e.1)).Nodup) : (getDisjointPairs pairs mate).Nodup := by
  rw [getDisjointPairs, List.nodup_flatMap]
  refine ⟨fun v hv => innerNames_nodup pairs mate v hkeys, ?_⟩
  refine List.Pairwise.imp ?_ (List.pairwise_lt_range _)
  intro a b hab
  show List.Disjoint (innerNames pairs mate a) (innerNames pairs mate b)
  intro p hpa hpb
  obtain ⟨e1, he1, hn1, hs1⟩ := (mem_innerNames pairs mate a p).mp hpa
  obtain ⟨e2, he2, hn2, hs2⟩ := (mem_innerNames pairs mate b p).mp hpb
  have he12 : e1 = e2 := pairs_name_inj pairs hkeys e1 he1 e2 he2 (hn1.trans hn2.symm)
  subst he12
  exact absurd (hs1.1.symm.trans hs2.1) (by omega)

theorem getDisjointPairs_disjoint_aux (pairs : List PairEntry) (mate : List Int)
    (hkeys : (pairs.map (fun e => e.1)).Nodup)
    (hedges : ∀ e1, e1 ∈ pairs → ∀ e2, e2 ∈ pairs →
      ((e1.2.1 = e2.2.1 ∧ e1.2.2 = e2.2.2) ∨ (e1.2.1 = e2.2.2 ∧ e1.2.2 = e2.2.1)) →
      e1 = e2)
    (hmatch : IsMatching (edgesOf pairs) mate) :
    ∀ e1, e1 ∈ pairs → ∀ e2, e2 ∈ pairs → e1.1 ∈ getDisjointPairs pairs mate →
      e2.1 ∈ getDisjointPairs pairs mate → e1 ≠ e2 →
      e1.2.1 ≠ e2.2.1 ∧ e1.2.1 ≠ e2.2.2 ∧ e1.2.2 ≠ e2.2.1 ∧ e1.2.2 ≠ e2.2.2 := by
  intro e1 h1 e2 h2 hm1 hm2 hne
  obtain ⟨f1, hf1, hname1, hlt1, hmate1, _⟩ := (mem_getDisjointPairs pairs mate e1.1).mp hm1
  have hfe1 : f1 = e1 := pairs_name_inj pairs hkeys f1 hf1 e1 h1 hname1
  rw [hfe1] at hlt1 hmate1
  obtain ⟨f2, hf2, hname2, hlt2, hmate2, _⟩ := (mem_getDisjointPairs pairs mate e2.1).mp hm2
  have hfe2 : f2 = e2 := pairs_name_inj pairs hkeys f2 hf2 e2 h2 hname2
  rw [hfe2] at hlt2 hmate2
  obtain ⟨hb1, hm1b, hne1⟩ := mate_symm pairs mate hmatch e1.2.1 e1.2.2 hlt1 hmate1.symm
  obtain ⟨hb2, hm2b, hne2⟩ := mate_symm pairs mate hmatch e2.2.1 e2.2.2 hlt2 hmate2.symm
  refine ⟨?_, ?_, ?_, ?_⟩
  · intro heq
    have hbb : (e1.2.2 : Int) = (e2.2.2 : Int) := by
      rw [hmate1, hmate2, heq]
    exact hne (hedges e1 h1 e2 h2 (Or.inl ⟨heq, by exact_mod_cast hbb⟩))
  · intro heq
    have hbb : (e1.2.2 : Int) = (e2.2.1 : Int) := by
      rw [hmate1, heq]
      exact hm2b
    exact hne (hedges e1 h1 e2 h2 (Or.inr ⟨heq, by exact_mod_cast hbb⟩))
  · intro heq
    have hbb : (e1.2.1 : Int) = (e2.2.2 : Int) := by
      rw [← hm1b, heq]
      exact hmate2.symm
    exact hne (hedges e1 h1 e2 h2 (Or.inr ⟨by exact_mod_cast hbb, heq⟩))
  · intro heq
    have hbb : (e1.2.1 : Int) = (e2.2.1 : Int) := by
      rw [← hm1b, heq]
      exact hm2b
    exact hne (hedges e1 h1 e2 h2 (Or.inl ⟨by exact_mod_cast hbb, heq⟩))

theorem mate0_length (k : Nat) : (mate0 k).length = k := by
  simp [mate0]

theorem mate0_getD (k v : Nat) (h : v < k) :
    (mate0 k).getD v (-1) = if v % 2 = 0 then (v : Int) + 1 else (v : Int) - 1 := by
  rw [mate0, List.getD_eq_getElem?_getD, List.getElem?_map, List.getElem?_range h]
  rfl

theorem mate0_isMatching (pairs : List PairEntry) (k : Nat) (hk : k % 2 = 0)
    (hcomp : ∀ i j, i < j → j < k → ∃ e, e ∈ pairs ∧ e.2.1 = i ∧ e.2.2 = j) :
    IsMatching (edgesOf pairs) (mate0 k) := by
  intro v hv
  rw [mate0_length] at hv
  right
  by_cases hpar : v % 2 = 0
  · obtain ⟨e, he, h1, h2⟩ := hcomp v (v + 1) (by omega) (by omega)
    refine ⟨v + 1, ?_, ?_, ?_, by omega, Or.inl ?_⟩
    · rw [mate0_length]
      omega
    · rw [mate0_getD k v hv, if_pos hpar]
      omega
    · rw [mate0_getD k (v + 1) (by omega), if_neg (by omega)]
      omega
    · rw [edgesOf, List.mem_map]
      refine ⟨e, he, ?_⟩
      show (e.2.1, e.2.2) = (v, v + 1)
      rw [h1, h2]
  · obtain ⟨e, he, h1, h2⟩ := hcomp (v - 1) v (by omega) hv
    refine ⟨v - 1, ?_, ?_, ?_, by omega, Or.inr ?_⟩
    · rw [mate0_length]
      omega
    · rw [mate0_getD k v hv, if_neg hpar]
      omega
    · rw [mate0_getD k (v - 1) (by omega), if_pos (by omega)]
      omega
    · rw [edgesOf, List.mem_map]
      refine ⟨e, he, ?_⟩
      show (e.2.1, e.2.2) = (v - 1, v)
      rw [h1, h2]

theorem mate0_matchedCount (k : Nat) : matchedCount (mate0 k) = k := by
  rw [matchedCount, mate0_length]
  have hall : ∀ v ∈ List.range k, ((mate0 k).getD v (-1) != -1) = true := by
    intro v hv
    rw [List.mem_range] at hv
    rw [mate0_getD k v hv]
    by_cases hpar : v % 2 = 0
    · rw [if_pos hpar, bne_iff_ne]
      omega
    · rw [if_neg hpar, bne_iff_ne]
      omega
  rw [List.filter_eq_self.mpr hall, List.length_range]

theorem matchedCount_le (mate : List Int) : matchedCount mate ≤ mate.length := by
  rw [matchedCount]
  exact le_trans (List.length_filter_le _ _) (le_of_eq (List.length_range _))

theorem allMatched (pairs : List PairEntry) (mate : List Int) (k : Nat)
    (hlen : mate.length = k) (hk : k % 2 = 0)
    (hcomp : ∀ i j, i < j → j < k → ∃ e, e ∈ pairs ∧ e.2.1 = i ∧ e.2.2 = j)
    (hmax : ∀ mate2, mate2.length = mate.length → IsMatching (edgesOf pairs) mate2 →
      matchedCount mate2 ≤ matchedCount mate) :
    ∀ v, v < k → mate.getD v (-1) ≠ -1 := by
  have h1 : k ≤ matchedCount mate := by
    have h := hmax (mate0 k) (by rw [mate0_length, hlen]) (mate0_isMatching pairs k hk hcomp)
    rw [mate0_matchedCount] at h
    exact h
  have h2 : matchedCount mate ≤ k := by
    rw [← hlen]
    exact matchedCount_le mate
  have h3 : ((List.range mate.length).filter (fun v => mate.getD v (-1) != -1)).length
      = (List.range mate.length).length := by
    rw [matchedCount] at h1 h2
    rw [List.length_range]
    omega
  have h4 := List.filter_length_eq_length.mp h3
  intro v hv
  have h5 := h4 v (List.mem_range.mpr (by omega))
  rw [bne_iff_ne] at h5
  exact h5

theorem mate_structure (pairs : List PairEntry) (mate : List Int) (k : Nat)
    (hlen : mate.length = k)
    (hmatch : IsMatching (edgesOf pairs) mate)
    (hall : ∀ v, v < k → mate.getD v (-1) ≠ -1) :
    ∀ v, v < k → ∃ w, w < k ∧ mate.getD v (-1) = (w : Int) ∧
      mate.getD w (-1) = (v : Int) ∧ v ≠ w := by
  intro v hv
  rcases hmatch v (by rw [hlen]; exact hv) with h | ⟨w, hw, h1, h2, h3, _⟩
  · exact absurd h (hall v hv)
  · rw [hlen] at hw
    exact ⟨w, hw, h1, h2, h3⟩

theorem length_eq_one_of_unique_mem (l : List String) (hnd : l.Nodup) (a : String)
    (h : ∀ x, x ∈ l ↔ x = a) : l.length = 1 := by
  cases l with
  | nil => exact absurd ((h a).mpr rfl) (List.not_mem_nil a)
  | cons x xs =>
    cases xs with
    | nil => rfl
    | cons y ys =>
      have hx : x = a := (h x).mp (by simp)
      have hy : y = a := (h y).mp (by simp)
      rw [hx, hy] at hnd
      simp at hnd

theorem innerNames_length_complete (pairs : List PairEntry) (mate : List Int) (k : Nat)
    (hkeys : (pairs.map (fun e => e.1)).Nodup)
    (hedges : ∀ e1, e1 ∈ pairs → ∀ e2, e2 ∈ pairs →
      ((e1.2.1 = e2.2.1 ∧ e1.2.2 = e2.2.2) ∨ (e1.2.1 = e2.2.2 ∧ e1.2.2 = e2.2.1)) →
      e1 = e2)
    (horient : ∀ e ∈ pairs, e.2.1 < e.2.2 ∧ e.2.2 < k)
    (hcomp : ∀ i j, i < j → j < k → ∃ e, e ∈ pairs ∧ e.2.1 = i ∧ e.2.2 = j)
    (hnofake : ∀ e ∈ pairs, ¬ e.1.take 4 = "fake")
    (v w : Nat) (hv : v < k) (hw : w < k)
    (hvw : mate.getD v (-1) = (w : Int)) :
    (innerNames pairs mate v).length = if v < w then 1 else 0 := by
  by_cases hlt : v < w
  · rw [if_pos hlt]
    obtain ⟨e0, he0, h01, h02⟩ := hcomp v w hlt hw
    apply length_eq_one_of_unique_mem _ (innerNames_nodup pairs mate v hkeys) e0.1
    intro x
    rw [mem_innerNames]
    constructor
    · rintro ⟨e, he, hex, hs1, hs2, hs3⟩
      have hb : e.2.2 = w := by
        rw [hvw] at hs2
        exact_mod_cast hs2
      have hee : e = e0 := hedges e he e0 he0 (Or.inl ⟨hs1.trans h01.symm, hb.trans h02.symm⟩)
      rw [← hex, hee]
    · intro hx
      refine ⟨e0, he0, hx.symm, h01, ?_, hnofake e0 he0⟩
      rw [h02, hvw]
  · rw [if_neg hlt]
    rw [List.length_eq_zero, List.eq_nil_iff_forall_not_mem]
    intro x hx
    obtain ⟨e, he, hex, hs1, hs2, hs3⟩ := (mem_innerNames pairs mate v x).mp hx
    have hb : e.2.2 = w := by
      rw [hvw] at hs2
      exact_mod_cast hs2
    have ho := (horient e he).1
    omega

theorem list_range_map_sum (n : Nat) (f : Nat → Nat) :
    ((List.range n).map f).sum = ∑ v ∈ Finset.range n, f v := by
  induction n with
  | zero => rfl
  | succ m ih =>
    rw [List.range_succ, List.map_append, List.sum_append, Finset.sum_range_succ, ih]
    simp

theorem getDisjointPairs_complete_length (pairs : List PairEntry) (mate : List Int)
    (k : Nat) (hlen : mate.length = k) (hk : k % 2 = 0)
    (hkeys : (pairs.map (fun e => e.1)).Nodup)
    (hedges : ∀ e1, e1 ∈ pairs → ∀ e2, e2 ∈ pairs →
      ((e1.2.1 = e2.2.1 ∧ e1.2.2 = e2.2.2) ∨ (e1.2.1 = e2.2.2 ∧ e1.2.2 = e2.2.1)) →
      e1 = e2)
    (horient : ∀ e ∈ pairs, e.2.1 < e.2.2 ∧ e.2.2 < k)
    (hcomp : ∀ i j, i < j → j < k → ∃ e, e ∈ pairs ∧ e.2.1 = i ∧ e.2.2 = j)
    (hnofake : ∀ e ∈ pairs, ¬ e.1.take 4 = "fake")
    (hmatch : IsMatching (edgesOf pairs) mate)
    (hmax : ∀ mate2, mate2.length = mate.length → IsMatching (edgesOf pairs) mate2 →
      matchedCount mate2 ≤ matchedCount mate) :
    (getDisjointPairs pairs mate).length = k / 2 := by
  have hall := allMatched pairs mate k hlen hk hcomp hmax
  have hstruct := mate_structure pairs mate k hlen hmatch hall
  have h1 : (getDisjointPairs pairs mate).length
      = ∑ v ∈ Finset.range k, (innerNames pairs mate v).length := by
    rw [getDisjointPairs, hlen]
    show (List.flatten (List.map (innerNames pairs mate) (List.range k))).length = _
    rw [List.length_flatten, List.map_map]
    exact list_range_map_sum k _
  have h2 : ∀ v ∈ Finset.range k, (innerNames pairs mate v).length
      = if (v : Int) < mate.getD v (-1) then 1 else 0 := by
    intro v hv
    rw [Finset.mem_range] at hv
    obtain ⟨w, hw, hvw, hwv, hne⟩ := hstruct v hv
    rw [innerNames_length_complete pairs mate k hkeys hedges horient hcomp hnofake
      v w hv hw hvw]
    rw [hvw]
    by_cases hcase : v < w
    · rw [if_pos hcase, if_pos (by exact_mod_cast hcase)]
    · rw [if_neg hcase, if_neg (by exact_mod_cast hcase)]
  have h3 : (∑ v ∈ Finset.range k, if (v : Int) < mate.getD v (-1) then 1 else 0)
      = ((Finset.range k).filter (fun (v : Nat) => (v : Int) < mate.getD v (-1))).card := by
    rw [← Finset.sum_filter, Finset.card_eq_sum_ones]
  rw [h1, Finset.sum_congr rfl h2, h3]
  have hAB : ((Finset.range k).filter (fun (v : Nat) => (v : Int) < mate.getD v (-1))).card
      = ((Finset.range k).filter (fun (v : Nat) => mate.getD v (-1) < (v : Int))).card := by
    apply Finset.card_bij (fun v _ => (mate.getD v (-1)).toNat)
    · intro a ha
      rw [Finset.mem_filter, Finset.mem_range] at ha
      obtain ⟨hak, hpa⟩ := ha
      obtain ⟨w, hw, hvw, hwv, hne⟩ := hstruct a hak
      rw [hvw, Int.toNat_natCast, Finset.mem_filter, Finset.mem_range]
      refine ⟨hw, ?_⟩
      rw [hwv]
      rw [hvw] at hpa
      exact hpa
    · intro a1 ha1 a2 ha2 heq
      rw [Finset.mem_filter, Finset.mem_range] at ha1 ha2
      obtain ⟨w1, hw1, hv1, hb1, _⟩ := hstruct a1 ha1.1
      obtain ⟨w2, hw2, hv2, hb2, _⟩ := hstruct a2 ha2.1
      rw [hv1, Int.toNat_natCast] at heq
      rw [hv2, Int.toNat_natCast] at heq
      subst heq
      have hb := hb1.symm.trans hb2
      exact_mod_cast hb
    · intro b hb
      rw [Finset.mem_filter, Finset.mem_range] at hb
      obtain ⟨hbk, hpb⟩ := hb
      obtain ⟨w, hw, hvw, hwv, hne⟩ := hstruct b hbk
      refine ⟨w, ?_, ?_⟩
      · rw [Finset.mem_filter, Finset.mem_range]
        refine ⟨hw, ?_⟩
        rw [hwv]
        rw [hvw] at hpb
        exact hpb
      · rw [hwv, Int.toNat_natCast]
  have hsplit : ((Finset.range k).filter (fun (v : Nat) => (v : Int) < mate.getD v (-1))).card
      + ((Finset.range k).filter (fun (v : Nat) => ¬ ((v : Int) < mate.getD v (-1)))).card
      = k := by
    rw [Finset.filter_card_add_filter_neg_card_eq_card, Finset.card_range]
  have hBeq : (Finset.range k).filter (fun (v : Nat) => ¬ ((v : Int) < mate.getD v (-1)))
      = (Finset.range k).filter (fun (v : Nat) => mate.getD v (-1) < (v : Int)) := by
    apply Finset.filter_congr
    intro v hv
    rw [Finset.mem_range] at hv
    obtain ⟨w, hw, hvw, hwv, hne⟩ := hstruct v hv
    rw [hvw]
    constructor
    · intro hnot
      have hn1 : ¬ v < w := by exact_mod_cast hnot
      have hn2 : w < v := by omega
      exact_mod_cast hn2
    · intro hlt2
      have hn1 : w < v := by exact_mod_cast hlt2
      intro hc
      have hn2 : v < w := by exact_mod_cast hc
      omega
  rw [hBeq] at hsplit
  omega

/-- Claim C1 counterexample: a layout in which two distinct pair names, `A`
and `B`, denote the same unordered qubit pair `{0,1}` (stored with opposite
orientations).  On the valid maximum-cardinality matching `[1, 0]` the source
returns both names — `A` at vertex 0 and `B` at vertex 1 — so qubits 0 and 1
each appear in two returned pairs and the disjointness claimed for every
layout fails. -/
theorem getDisjointPairs_overlap_counterexample :
    IsMaxCardMatching (edgesOf [("A", 0, 1), ("B", 1, 0)]) [1, 0] ∧
      getDisjointPairs [("A", 0, 1), ("B", 1, 0)] [1, 0] = ["A", "B"] ∧
      pairsGet [("A", 0, 1), ("B", 1, 0)] "A" = (0, 1) ∧
      pairsGet [("A", 0, 1), ("B", 1, 0)] "B" = (1, 0) ∧
      ("A" : String) ≠ "B" := by
  refine ⟨⟨?_, ?_⟩, by decide, by decide, by decide, by decide⟩
  · intro v hv
    have hv2 : v < 2 := hv
    interval_cases v
    · exact Or.inr ⟨1, by decide, by decide, by decide, by decide, Or.inl (by decide)⟩
    · exact Or.inr ⟨0, by decide, by decide, by decide, by decide, Or.inr (by decide)⟩
  · intro mate2 hlen hm
    have h1 : matchedCount mate2 ≤ 2 := by
      have h := matchedCount_le mate2
      rw [hlen] at h
      exact h
    have h2 : matchedCount [(1 : Int), 0] = 2 := by decide
    rw [h2]
    exact h1

/-- Claim C1 (amended): consider any layout whose pair names are distinct and
in which distinct names denote distinct unordered qubit pairs, and any `mate`
satisfying the modelled `mwmatching` contract on the layout's edges.  Then
`getDisjointPairs` returns only pair names not flagged fake, contains no name
twice, and no qubit appears in two returned pairs; moreover, for a fully
connected layout on an even number `k` of qubits (an entry for every
`i < j < k`, canonically oriented, none fake) and a maximum-cardinality
matching, exactly `k/2` pairs are returned.  (Without the distinct-edge
condition, two names for the same qubit pair can both be returned, breaking
disjointness.) -/
theorem getDisjointPairs_correct (pairs : List PairEntry) (mate : List Int)
    (hkeys : (pairs.map (fun e => e.1)).Nodup)
    (hedges : ∀ e1, e1 ∈ pairs → ∀ e2, e2 ∈ pairs →
      ((e1.2.1 = e2.2.1 ∧ e1.2.2 = e2.2.2) ∨ (e1.2.1 = e2.2.2 ∧ e1.2.2 = e2.2.1)) →
      e1 = e2)
    (hmatch : IsMatching (edgesOf pairs) mate) :
    (∀ p ∈ getDisjointPairs pairs mate, ¬ p.take 4 = "fake") ∧
      (getDisjointPairs pairs mate).Nodup ∧
      (∀ e1, e1 ∈ pairs → ∀ e2, e2 ∈ pairs → e1.1 ∈ getDisjointPairs pairs mate →
        e2.1 ∈ getDisjointPairs pairs mate → e1 ≠ e2 →
        e1.2.1 ≠ e2.2.1 ∧ e1.2.1 ≠ e2.2.2 ∧ e1.2.2 ≠ e2.2.1 ∧ e1.2.2 ≠ e2.2.2) ∧
      (∀ k, mate.length = k → k % 2 = 0 →
        (∀ e ∈ pairs, e.2.1 < e.2.2 ∧ e.2.2 < k) →
        (∀ i j, i < j → j < k → ∃ e, e ∈ pairs ∧ e.2.1 = i ∧ e.2.2 = j) →
        (∀ e ∈ pairs, ¬ e.1.take 4 = "fake") →
        (∀ mate2, mate2.length = mate.length → IsMatching (edgesOf pairs) mate2 →
          matchedCount mate2 ≤ matchedCount mate) →
        (getDisjointPairs pairs mate).length = k / 2) := by
  refine ⟨?_, getDisjointPairs_nodup pairs mate hkeys,
    getDisjointPairs_disjoint_aux pairs mate hkeys hedges hmatch, ?_⟩
  · intro p hp
    obtain ⟨e, _, hep, _, _, hf⟩ := (mem_getDisjointPairs pairs mate p).mp hp
    rw [← hep]
    exact hf
  · intro k hlen hk horient hcomp hnofake hmax
    exact getDisjointPairs_complete_length pairs mate k hlen hk hkeys hedges horient
      hcomp hnofake hmatch hmax

theorem getDisjointPairs_correct_witness :
    (getDisjointPairs [("A", 0, 1)] [1, 0]).length = 2 / 2 :=
  (getDisjointPairs_correct [("A", 0, 1)] [1, 0]
      (by decide)
      (fun e1 h1 e2 h2 _ => by
        rw [List.mem_singleton] at h1 h2
        rw [h1, h2])
      (by
        intro v hv
        have hv2 : v < 2 := hv
        interval_cases v
        · exact Or.inr ⟨1, by decide, by decide, by decide, by decide, Or.inl (by decide)⟩
        · exact Or.inr ⟨0, by decide, by decide, by decide, by decide, Or.inr (by decide)⟩)
    ).2.2.2 2 (by decide) (by decide)
    (by
      intro e he
      rw [List.mem_singleton] at he
      rw [he]
      exact ⟨by decide, by decide⟩)
    (by
      intro i j hij hj
      obtain ⟨hi0, hj1⟩ : i = 0 ∧ j = 1 := by omega
      rw [hi0, hj1]
      exact ⟨("A", 0, 1), by simp, rfl, rfl⟩)
    (by
      intro e he
      rw [List.mem_singleton] at he
      rw [he]
      decide)
    (by
      intro mate2 hlen hm
      have h1 : matchedCount mate2 ≤ 2 := by
        have h := matchedCount_le mate2
        rw [hlen] at h
        exact h
      have h2 : matchedCount [(1 : Int), 0] = 2 := by decide
      rw [h2]
      exact h1)
